import Mathlib

/-!
# erkir: geodesy over spherical and ellipsoidal earth models

A shallow embedding of `src/src/point.cpp`, `src/include/coordinate.h` and
`src/include/ellipsoidalpoint.h`.

Numbers: the C++ `double` is idealised as a real number, so every definition
that touches arithmetic lives in a `noncomputable section`.  The `<cmath>`
functions are the real functions they approximate:

* `std::sin`, `std::cos`, `std::sqrt` are `Real.sin`, `Real.cos`, `Real.sqrt`;
* `std::atan2 y x` is the argument of the complex number `x + y i`, which is
  in `(-pi, pi]` and is `0` at the origin, as in C;
* `fmod x y` is `x - trunc (x / y) * y`, with `trunc` rounding towards zero.

Rounding, infinities and NaN are outside this model.
-/

noncomputable section

namespace Erkir

/-! ## `<cmath>` over the reals -/

/-- Rounding towards zero, the integer quotient that `fmod` subtracts. -/
def trunc (x : ℝ) : ℤ := if 0 ≤ x then ⌊x⌋ else ⌈x⌉

/-- The C function `fmod`: the remainder of `x / y` with the sign of `x`. -/
def fmod (x y : ℝ) : ℝ := x - (trunc (x / y) : ℝ) * y

/-- The C function `atan2`: the angle of the point `(x, y)`, in `(-pi, pi]`. -/
def atan2 (y x : ℝ) : ℝ := Complex.arg ⟨x, y⟩

/-! ## `coordinate.h` -/

/-- The class `erkir::Coordinate`: one angular value, stored in decimal degrees. -/
structure Coordinate where
  m_degrees : ℝ

namespace Coordinate

/-- Modelled from the spec: the body of `Coordinate::pi()` is not in the sources;
"`pi()` returns the mathematical constant at working precision". -/
def pi : ℝ := Real.pi

/-- Modelled from the spec: the body of `Coordinate::degrees()` is not in the
sources; "`degrees()` returns the stored value unchanged". -/
def degrees (c : Coordinate) : ℝ := c.m_degrees

/-- Modelled from the spec: the body of `Coordinate::radians()` is not in the
sources; "`radians()` returns `degrees * pi/180`". -/
def radians (c : Coordinate) : ℝ := c.m_degrees * pi / 180

/-- Modelled from the spec: the body of the static helper `Coordinate::toRadians`
is not in the sources; a stateless degrees-to-radians conversion, the same
`degrees * pi/180` as `radians()`. -/
def toRadians (degrees : ℝ) : ℝ := degrees * pi / 180

/-- Modelled from the spec: the body of the static helper `Coordinate::toDegrees`
is not in the sources; the stateless radians-to-degrees conversion,
`radians * 180/pi`. -/
def toDegrees (radians : ℝ) : ℝ := radians * 180 / pi

end Coordinate

/-- The class `erkir::Latitude`, a `Coordinate`. -/
structure Latitude extends Coordinate

/-- The class `erkir::Longitude`, a `Coordinate`. -/
structure Longitude extends Coordinate

/-- Wraparound of a latitude: the angle is folded at the poles, so `91` becomes
`89` and `-91` becomes `-89`; the result is in `[-90, 90]`. -/
def wrap90 (d : ℝ) : ℝ :=
  let t := d + 90 - 360 * (⌊(d + 90) / 360⌋ : ℝ)
  if t ≤ 180 then t - 90 else 270 - t

/-- Wraparound of a longitude: the value in `(-180, 180]` that differs from `d`
by a multiple of `360`. -/
def wrap180 (d : ℝ) : ℝ := d - 360 * (⌈(d - 180) / 360⌉ : ℝ)

/-- Modelled from the spec: the body of the constructor `Latitude::Latitude` is
not in the sources; "Latitude is a Coordinate constrained to [-90,90]", by the
wraparound normalization on construction that section 3 names. -/
def Latitude.construct (degree : ℝ) : Latitude := ⟨⟨wrap90 degree⟩⟩

/-- Modelled from the spec: the body of the constructor `Longitude::Longitude`
is not in the sources; "Longitude constrained to (-180,180] with wraparound
normalization on construction". -/
def Longitude.construct (degree : ℝ) : Longitude := ⟨⟨wrap180 degree⟩⟩

/-! ## `point.cpp` -/

/-- The spherical `Point` of `point.cpp`: a latitude and a longitude. -/
structure Point where
  m_latitude : Latitude
  m_longitude : Longitude

namespace Point

/-- The accessor `Point::latitude`. -/
def latitude (p : Point) : Latitude := p.m_latitude

/-- The accessor `Point::longitude`. -/
def longitude (p : Point) : Longitude := p.m_longitude

/-- The method `Point::sphericalDistanceTo`: the haversine formula. -/
def sphericalDistanceTo (self point : Point) (radius : ℝ) : ℝ :=
  let phi1 := self.m_latitude.radians
  let lambda1 := self.m_longitude.radians
  let phi2 := point.latitude.radians
  let lambda2 := point.longitude.radians
  let deltaPhi := phi2 - phi1
  let deltaLambda := lambda2 - lambda1
  let a := Real.sin (deltaPhi / 2.0) * Real.sin (deltaPhi / 2.0) +
           Real.cos phi1 * Real.cos phi2 *
           Real.sin (deltaLambda / 2.0) * Real.sin (deltaLambda / 2.0)
  let c := 2.0 * atan2 (Real.sqrt a) (Real.sqrt (1.0 - a))
  radius * c

/-- The method `Point::sphericalBearingTo`: the initial bearing, in degrees. -/
def sphericalBearingTo (self point : Point) : ℝ :=
  let phi1 := self.m_latitude.radians
  let phi2 := point.latitude.radians
  let deltaLambda := point.longitude.radians - self.longitude.radians
  let y := Real.sin deltaLambda * Real.cos phi2
  let x := Real.cos phi1 * Real.sin phi2 -
           Real.sin phi1 * Real.cos phi2 * Real.cos deltaLambda
  let theta := atan2 y x
  fmod (Coordinate.toDegrees theta + 360.0) 360.0

/-- The method `Point::sphericalFinalBearingTo`: the initial bearing from the
destination back to this point, reversed. -/
def sphericalFinalBearingTo (self point : Point) : ℝ :=
  fmod (point.sphericalBearingTo self + 180.0) 360.0

/-- The intermediate quantity `a` of `Point::sphericalDistanceTo`, the haversine
of the angle between the two points. -/
def haversine (self point : Point) : ℝ :=
  let phi1 := self.m_latitude.radians
  let lambda1 := self.m_longitude.radians
  let phi2 := point.latitude.radians
  let lambda2 := point.longitude.radians
  let deltaPhi := phi2 - phi1
  let deltaLambda := lambda2 - lambda1
  Real.sin (deltaPhi / 2.0) * Real.sin (deltaPhi / 2.0) +
    Real.cos phi1 * Real.cos phi2 *
    Real.sin (deltaLambda / 2.0) * Real.sin (deltaLambda / 2.0)

/-- The angle `theta` of `Point::sphericalBearingTo`, the result of `atan2`,
converted to degrees. -/
def bearingAngle (self point : Point) : ℝ :=
  let phi1 := self.m_latitude.radians
  let phi2 := point.latitude.radians
  let deltaLambda := point.longitude.radians - self.longitude.radians
  let y := Real.sin deltaLambda * Real.cos phi2
  let x := Real.cos phi1 * Real.sin phi2 -
           Real.sin phi1 * Real.cos phi2 * Real.cos deltaLambda
  Coordinate.toDegrees (atan2 y x)

end Point

/-! ## `ellipsoidalpoint.h` -/

namespace ellipsoidal

/-- The enumeration `erkir::ellipsoidal::Point::Datum`. -/
inductive Datum where
  | ED50
  | Irl1975
  | NAD27
  | NAD83
  | NTF
  | OSGB36
  | Potsdam
  | TokyoJapan
  | WGS72
  | WGS84
  deriving DecidableEq

/-- Modelled from the spec: `vector3d.h` is not in the sources; "three real
components (x,y,z), units meters when representing a geocentric position". -/
structure Vector3d where
  x : ℝ
  y : ℝ
  z : ℝ

/-- Modelled from the spec: the ellipsoid record of the datum table, which is not
in the sources; "semi-major axis `a` (meters), flattening `f`". -/
structure Ellipsoid where
  a : ℝ
  f : ℝ

/-- Modelled from the spec: the Helmert record of the datum table, which is not in
the sources; translation in metres, scale in parts per million, rotations in
arc-seconds, from the datum to WGS84. -/
structure Helmert where
  tx : ℝ
  ty : ℝ
  tz : ℝ
  s : ℝ
  rx : ℝ
  ry : ℝ
  rz : ℝ

/-- Modelled from the spec: the fixed datum table, whose entries are not in the
sources; each identifier maps to an ellipsoid and to the transform to WGS84.
The table is a parameter of every operation that reads it. -/
structure DatumTable where
  ellipsoid : Datum → Ellipsoid
  transform : Datum → Helmert

/-- Modelled from the spec: the three constants that section 4.4 leaves to the
implementer as policy choices: the tolerance on the change of latitude, the
iteration cap, and how near zero `cos phi` must be for the height to use the
z-based form. -/
structure Inversion where
  tolerance : ℝ
  maxIterations : ℕ
  poleGuard : ℝ

/-- The failure of section 7 of the spec that the conversions can meet. -/
inductive Failure where
  | nonConvergence
  deriving DecidableEq

/-- The class `erkir::ellipsoidal::Point`: the coordinates inherited from
`erkir::Point`, the datum tag `m_datum`, and (modelled from the spec, the header
has no such member) the height above the ellipsoid in metres. -/
structure Point where
  m_latitude : Latitude
  m_longitude : Longitude
  m_height : ℝ
  m_datum : Datum

/-- Eccentricity squared of an ellipsoid, `e2 = 2f - f^2` (spec 4.3, step 1). -/
def eccentricitySquared (e : Ellipsoid) : ℝ := 2 * e.f - e.f ^ 2

/-- Radius of curvature in the prime vertical,
`nu = a / sqrt(1 - e2 sin^2 phi)` (spec 4.3, step 2). -/
def primeVertical (e : Ellipsoid) (phi : ℝ) : ℝ :=
  e.a / Real.sqrt (1 - eccentricitySquared e * Real.sin phi ^ 2)

/-- One step of the iteration of spec 4.4, as a function of the latitude. -/
def bowringStep (ell : Ellipsoid) (z p phi : ℝ) : ℝ :=
  atan2 (z + eccentricitySquared ell * primeVertical ell phi * Real.sin phi) p

namespace Point

/-- The accessor `Point::datum`. -/
def datum (self : Point) : Datum := self.m_datum

/-- Modelled from the spec: the body of `Point::toCartesian` is not in the
sources; spec 4.3.  The method is not `const`, so the result carries the state of
the receiver after the call next to the vector. -/
def toCartesian (tbl : DatumTable) (self : Point) : Vector3d × Point :=
  let phi := self.m_latitude.radians
  let lambda := self.m_longitude.radians
  let h := self.m_height
  let ell := tbl.ellipsoid self.m_datum
  let e2 := eccentricitySquared ell
  let nu := primeVertical ell phi
  (⟨(nu + h) * Real.cos phi * Real.cos lambda,
    (nu + h) * Real.cos phi * Real.sin lambda,
    ((1 - e2) * nu + h) * Real.sin phi⟩, self)

/-- Modelled from the spec: the iteration of spec 4.4, step 2, with `n` steps left
before the cap: `phi' = atan2(z + e2 nu sin phi, p)`, stopping when the change
is below the tolerance and failing when the cap is reached. -/
def bowring (cfg : Inversion) (ell : Ellipsoid) (z p : ℝ) : ℕ → ℝ → Except Failure ℝ
  | 0, _ => .error .nonConvergence
  | n + 1, phi =>
    let next := atan2 (z + eccentricitySquared ell * primeVertical ell phi * Real.sin phi) p
    if |next - phi| < cfg.tolerance then .ok next else bowring cfg ell z p n next

/-- Modelled from the spec: the body of `Point::toPoint` is not in the sources;
spec 4.4.  The method does not read its receiver.  The latitude it stores is in
`[-90, 90]` and the longitude in `(-180, 180]`, where the constructors keep the
value, so the coordinates are stored as computed. -/
def toPoint (cfg : Inversion) (tbl : DatumTable) (vector : Vector3d) (datum : Datum) :
    Except Failure Point :=
  let ell := tbl.ellipsoid datum
  let e2 := eccentricitySquared ell
  let p := Real.sqrt (vector.x ^ 2 + vector.y ^ 2)
  let phi0 := atan2 vector.z (p * (1 - e2))
  match bowring cfg ell vector.z p cfg.maxIterations phi0 with
  | .error e => .error e
  | .ok phi =>
    let nu := primeVertical ell phi
    let lambda := atan2 vector.y vector.x
    let h := if |Real.cos phi| < cfg.poleGuard
      then vector.z / Real.sin phi - (1 - e2) * nu
      else p / Real.cos phi - nu
    .ok ⟨⟨⟨Coordinate.toDegrees phi⟩⟩, ⟨⟨Coordinate.toDegrees lambda⟩⟩, h, datum⟩

/-- Rotation angle of a Helmert record in radians, from arc-seconds. -/
def arcsecToRadians (r : ℝ) : ℝ := Coordinate.toRadians (r / 3600)

/-- Modelled from the spec: spec 4.5, step 3, `v' = s_scale (I + R) v + t` with
`R` the skew-symmetric matrix of the rotations and `s_scale = 1 + s 1e-6`. -/
def applyTransform (t : Helmert) (v : Vector3d) : Vector3d :=
  let rx := arcsecToRadians t.rx
  let ry := arcsecToRadians t.ry
  let rz := arcsecToRadians t.rz
  let scale := 1 + t.s * 1e-6
  ⟨scale * (v.x - rz * v.y + ry * v.z) + t.tx,
   scale * (rz * v.x + v.y - rx * v.z) + t.ty,
   scale * (-ry * v.x + rx * v.y + v.z) + t.tz⟩

/-- Modelled from the spec: spec 4.5, step 4,
`v'' = (1 / s_scale) (I - R) (v' - t)`. -/
def applyInverse (t : Helmert) (v : Vector3d) : Vector3d :=
  let rx := arcsecToRadians t.rx
  let ry := arcsecToRadians t.ry
  let rz := arcsecToRadians t.rz
  let scale := 1 + t.s * 1e-6
  let dx := v.x - t.tx
  let dy := v.y - t.ty
  let dz := v.z - t.tz
  ⟨1 / scale * (dx + rz * dy - ry * dz),
   1 / scale * (-rz * dx + dy + rx * dz),
   1 / scale * (ry * dx - rx * dy + dz)⟩

/-- Modelled from the spec: the body of `Point::convertToDatum` is not in the
sources; spec 4.5.  The C++ method updates the receiver and returns a reference
to it, so the value returned here is both the state of the receiver after the
call and what the returned reference denotes. -/
def convertToDatum (cfg : Inversion) (tbl : DatumTable) (self : Point) (toDatum : Datum) :
    Except Failure Point :=
  if self.m_datum = toDatum then .ok self
  else
    let v := (toCartesian tbl self).1
    let v1 := applyTransform (tbl.transform self.m_datum) v
    let v2 := if toDatum ≠ Datum.WGS84 then applyInverse (tbl.transform toDatum) v1 else v1
    toPoint cfg tbl v2 toDatum

end Point

/-- Modelled from the spec: the one ellipsoid whose values the spec states,
"WGS84: a=6378137.0 m, 1/f=298.257223563". -/
def wgs84Ellipsoid : Ellipsoid := ⟨6378137.0, 1 / 298.257223563⟩

/-- Modelled from the spec: the Helmert record of WGS84, "identity for WGS84
itself". -/
def identityTransform : Helmert := ⟨0, 0, 0, 0, 0, 0, 0⟩

/-- Modelled from the spec: a datum table for evaluating the operations at the
datum WGS84.  The entries of the other nine datums are in neither the sources nor
the spec; this table gives them the WGS84 entry as a stand-in. -/
def wgs84Table : DatumTable := ⟨fun _ => wgs84Ellipsoid, fun _ => identityTransform⟩

/-- Modelled from the spec: constants of the inversion with a cap above
`pi / tolerance`, for the same tolerance `1e-12`. -/
def thoroughInversion : Inversion := ⟨1e-12, 4000000000000, 1e-9⟩

end ellipsoidal

/-! ## Facts about the `<cmath>` model -/

theorem fmod_of_nonneg (x : ℝ) (hx : 0 ≤ x) :
    fmod x 360 = x - (⌊x / 360⌋ : ℝ) * 360 := by
  unfold fmod trunc
  rw [if_pos (div_nonneg hx (by norm_num))]

theorem fmod_nonneg (x : ℝ) (hx : 0 ≤ x) : 0 ≤ fmod x 360 := by
  rw [fmod_of_nonneg x hx]
  have h := Int.floor_le (x / 360)
  have h2 : (⌊x / 360⌋ : ℝ) * 360 ≤ x := by
    have := mul_le_mul_of_nonneg_right h (by norm_num : (0 : ℝ) ≤ 360)
    simpa using this
  linarith

theorem fmod_lt (x : ℝ) (hx : 0 ≤ x) : fmod x 360 < 360 := by
  rw [fmod_of_nonneg x hx]
  have h := Int.lt_floor_add_one (x / 360)
  have h2 : x < ((⌊x / 360⌋ : ℝ) + 1) * 360 := by
    have := mul_lt_mul_of_pos_right h (by norm_num : (0 : ℝ) < 360)
    simpa using this
  linarith

theorem atan2_mem (y x : ℝ) : -Real.pi < atan2 y x ∧ atan2 y x ≤ Real.pi :=
  ⟨Complex.neg_pi_lt_arg _, Complex.arg_le_pi _⟩

theorem toDegrees_atan2_mem (y x : ℝ) :
    -180 < Coordinate.toDegrees (atan2 y x) ∧ Coordinate.toDegrees (atan2 y x) ≤ 180 := by
  obtain ⟨h1, h2⟩ := atan2_mem y x
  have hpi := Real.pi_pos
  unfold Coordinate.toDegrees Coordinate.pi
  constructor
  · rw [lt_div_iff₀ hpi]; linarith
  · rw [div_le_iff₀ hpi]; linarith

theorem sphericalBearingTo_mem (p q : Point) :
    0 ≤ p.sphericalBearingTo q ∧ p.sphericalBearingTo q < 360 := by
  unfold Point.sphericalBearingTo
  simp only []
  have h := toDegrees_atan2_mem
    (Real.sin (q.longitude.radians - p.longitude.radians) * Real.cos q.latitude.radians)
    (Real.cos p.m_latitude.radians * Real.sin q.latitude.radians -
      Real.sin p.m_latitude.radians * Real.cos q.latitude.radians *
        Real.cos (q.longitude.radians - p.longitude.radians))
  norm_num
  exact ⟨fmod_nonneg _ (by linarith [h.1]), fmod_lt _ (by linarith [h.1])⟩

/-! ## Facts about the wraparound of coordinates -/

theorem wrap90_mem (d : ℝ) : -90 ≤ wrap90 d ∧ wrap90 d ≤ 90 := by
  unfold wrap90
  have h1 := Int.floor_le ((d + 90) / 360)
  have h2 := Int.lt_floor_add_one ((d + 90) / 360)
  rw [le_div_iff₀ (by norm_num)] at h1
  rw [div_lt_iff₀ (by norm_num)] at h2
  simp only []
  split_ifs with h
  · constructor <;> linarith
  · push_neg at h
    constructor <;> linarith

theorem wrap90_of_mem (d : ℝ) (h1 : -90 ≤ d) (h2 : d ≤ 90) : wrap90 d = d := by
  have hf : ⌊(d + 90) / 360⌋ = 0 := by
    rw [Int.floor_eq_iff]
    constructor
    · simp only [Int.cast_zero]
      apply div_nonneg <;> linarith
    · rw [div_lt_iff₀ (by norm_num)]
      norm_num
      linarith
  unfold wrap90
  simp only [hf, Int.cast_zero, mul_zero, sub_zero]
  rw [if_pos (by linarith)]
  ring

theorem wrap180_mem (d : ℝ) : -180 < wrap180 d ∧ wrap180 d ≤ 180 := by
  unfold wrap180
  have h1 := Int.le_ceil ((d - 180) / 360)
  have h2 := Int.ceil_lt_add_one ((d - 180) / 360)
  rw [div_le_iff₀ (by norm_num)] at h1
  generalize (⌈(d - 180) / 360⌉ : ℝ) = k at h1 h2 ⊢
  constructor <;> linarith

theorem wrap180_of_mem (d : ℝ) (h1 : -180 < d) (h2 : d ≤ 180) : wrap180 d = d := by
  have hc : ⌈(d - 180) / 360⌉ = 0 := by
    rw [Int.ceil_eq_iff]
    constructor
    · rw [lt_div_iff₀ (by norm_num)]
      norm_num
      linarith
    · simp only [Int.cast_zero]
      apply div_nonpos_of_nonpos_of_nonneg <;> linarith
  unfold wrap180
  simp [hc]

/-! ## Facts about the ellipsoid -/

namespace ellipsoidal

theorem one_sub_eccentricitySquared (e : Ellipsoid) :
    1 - eccentricitySquared e = (1 - e.f) ^ 2 := by
  unfold eccentricitySquared; ring

theorem eccentricitySquared_lt_one (e : Ellipsoid) (h1 : e.f < 1) :
    eccentricitySquared e < 1 := by
  have h := one_sub_eccentricitySquared e
  have : 0 < (1 - e.f) ^ 2 := pow_pos (by linarith) 2
  linarith

theorem eccentricitySquared_nonneg (e : Ellipsoid) (h0 : 0 < e.f) (h1 : e.f < 1) :
    0 ≤ eccentricitySquared e := by
  unfold eccentricitySquared
  nlinarith

theorem radicand_pos (e : Ellipsoid) (h0 : 0 < e.f) (h1 : e.f < 1) (phi : ℝ) :
    0 < 1 - eccentricitySquared e * Real.sin phi ^ 2 := by
  have hs : Real.sin phi ^ 2 ≤ 1 := Real.sin_sq_le_one phi
  have hs0 : 0 ≤ Real.sin phi ^ 2 := sq_nonneg _
  have he := eccentricitySquared_lt_one e h1
  have he0 := eccentricitySquared_nonneg e h0 h1
  nlinarith

theorem primeVertical_pos (e : Ellipsoid) (ha : 0 < e.a) (h0 : 0 < e.f) (h1 : e.f < 1)
    (phi : ℝ) : 0 < primeVertical e phi :=
  div_pos ha (Real.sqrt_pos.mpr (radicand_pos e h0 h1 phi))

theorem primeVertical_of_sin_sq_one (e : Ellipsoid) (h1 : e.f < 1) (phi : ℝ)
    (hs : Real.sin phi ^ 2 = 1) : primeVertical e phi = e.a / (1 - e.f) := by
  unfold primeVertical
  rw [hs, mul_one, one_sub_eccentricitySquared, Real.sqrt_sq (by linarith)]

end ellipsoidal

/-! ## Facts about the inversion of spec 4.4 -/

theorem atan2_zero : atan2 0 0 = 0 := by
  unfold atan2
  have : (⟨0, 0⟩ : ℂ) = 0 := rfl
  rw [this, Complex.arg_zero]

theorem atan2_polar (r theta : ℝ) (hr : 0 < r) (h1 : -Real.pi < theta)
    (h2 : theta ≤ Real.pi) : atan2 (r * Real.sin theta) (r * Real.cos theta) = theta := by
  unfold atan2
  have e : (⟨r * Real.cos theta, r * Real.sin theta⟩ : ℂ) =
      (r : ℂ) * (Complex.cos theta + Complex.sin theta * Complex.I) := by
    apply Complex.ext
    · simp [← Complex.ofReal_cos, ← Complex.ofReal_sin]
    · simp [← Complex.ofReal_cos, ← Complex.ofReal_sin]
  rw [e]
  exact Complex.arg_mul_cos_add_sin_mul_I hr ⟨h1, h2⟩

theorem ratio_mono_nonneg (p y1 y2 : ℝ) (h0 : 0 ≤ y1) (h : y1 ≤ y2) :
    y1 / Real.sqrt (p * p + y1 * y1) ≤ y2 / Real.sqrt (p * p + y2 * y2) := by
  have hy2 : 0 ≤ y2 := le_trans h0 h
  have hd1 : 0 ≤ Real.sqrt (p * p + y1 * y1) := Real.sqrt_nonneg _
  rcases eq_or_lt_of_le hd1 with hz | hpos
  · rw [← hz, div_zero]
    exact div_nonneg hy2 (Real.sqrt_nonneg _)
  · have hle : Real.sqrt (p * p + y1 * y1) ≤ Real.sqrt (p * p + y2 * y2) :=
      Real.sqrt_le_sqrt (by nlinarith)
    have hpos2 : 0 < Real.sqrt (p * p + y2 * y2) := lt_of_lt_of_le hpos hle
    rw [div_le_div_iff₀ hpos hpos2]
    have e1 : y1 * Real.sqrt (p * p + y2 * y2) = Real.sqrt (y1 * y1 * (p * p + y2 * y2)) := by
      rw [Real.sqrt_mul (mul_self_nonneg y1), Real.sqrt_mul_self h0]
    have e2 : y2 * Real.sqrt (p * p + y1 * y1) = Real.sqrt (y2 * y2 * (p * p + y1 * y1)) := by
      rw [Real.sqrt_mul (mul_self_nonneg y2), Real.sqrt_mul_self hy2]
    rw [e1, e2]
    apply Real.sqrt_le_sqrt
    have : y1 * y1 ≤ y2 * y2 := mul_self_le_mul_self h0 h
    nlinarith [mul_self_nonneg p]

theorem ratio_mono (p y1 y2 : ℝ) (h : y1 ≤ y2) :
    y1 / Real.sqrt (p * p + y1 * y1) ≤ y2 / Real.sqrt (p * p + y2 * y2) := by
  rcases le_total 0 y1 with h1 | h1
  · exact ratio_mono_nonneg p y1 y2 h1 h
  · rcases le_total 0 y2 with h2 | h2
    · exact le_trans (div_nonpos_of_nonpos_of_nonneg h1 (Real.sqrt_nonneg _))
        (div_nonneg h2 (Real.sqrt_nonneg _))
    · have := ratio_mono_nonneg p (-y2) (-y1) (by linarith) (by linarith)
      simp only [neg_mul_neg, neg_div] at this
      linarith

/-- For a point in the closed right half-plane `atan2` grows with the ordinate. -/
theorem atan2_mono (p y1 y2 : ℝ) (hp : 0 ≤ p) (h : y1 ≤ y2) : atan2 y1 p ≤ atan2 y2 p := by
  unfold atan2
  rw [Complex.arg_of_re_nonneg (show 0 ≤ (⟨p, y1⟩ : ℂ).re from hp),
    Complex.arg_of_re_nonneg (show 0 ≤ (⟨p, y2⟩ : ℂ).re from hp)]
  apply Real.monotone_arcsin
  simp only [Complex.abs_apply, Complex.normSq_mk]
  exact ratio_mono p y1 y2 h

theorem atan2_range (p y : ℝ) (hp : 0 ≤ p) :
    -(Real.pi / 2) ≤ atan2 y p ∧ atan2 y p ≤ Real.pi / 2 := by
  have := (Complex.abs_arg_le_pi_div_two_iff (z := ⟨p, y⟩)).mpr hp
  exact abs_le.mp this

namespace ellipsoidal

theorem bowring_fixed (cfg : Inversion) (ell : Ellipsoid) (z p : ℝ) (n : ℕ) (phi : ℝ)
    (htol : 0 < cfg.tolerance)
    (hfix : atan2 (z + eccentricitySquared ell * primeVertical ell phi * Real.sin phi) p = phi) :
    Point.bowring cfg ell z p (n + 1) phi = .ok phi := by
  unfold Point.bowring
  simp only [hfix, sub_self, abs_zero, htol, if_true]

/-- The inversion of a vector that lies on the ellipsoid at latitude `phi` and
longitude `lam` (both in radians): the initial estimate is already `phi`. -/
theorem toPoint_surface (cfg : Inversion) (tbl : DatumTable) (D : Datum) (phi lam : ℝ)
    (htol : 0 < cfg.tolerance) (hcap : 1 ≤ cfg.maxIterations)
    (hg0 : 0 < cfg.poleGuard) (hg1 : cfg.poleGuard ≤ 1)
    (ha : 0 < (tbl.ellipsoid D).a) (hf0 : 0 < (tbl.ellipsoid D).f)
    (hf1 : (tbl.ellipsoid D).f < 1)
    (hphi1 : -(Real.pi / 2) ≤ phi) (hphi2 : phi ≤ Real.pi / 2)
    (hlam1 : -Real.pi < lam) (hlam2 : lam ≤ Real.pi) :
    Point.toPoint cfg tbl
      ⟨primeVertical (tbl.ellipsoid D) phi * Real.cos phi * Real.cos lam,
       primeVertical (tbl.ellipsoid D) phi * Real.cos phi * Real.sin lam,
       (1 - eccentricitySquared (tbl.ellipsoid D)) * primeVertical (tbl.ellipsoid D) phi
         * Real.sin phi⟩ D =
      .ok ⟨⟨⟨Coordinate.toDegrees phi⟩⟩,
           ⟨⟨Coordinate.toDegrees (if Real.cos phi = 0 then 0 else lam)⟩⟩, 0, D⟩ := by
  obtain ⟨n, hn⟩ : ∃ n, cfg.maxIterations = n + 1 := ⟨cfg.maxIterations - 1, by omega⟩
  have hpi := Real.pi_pos
  set ell := tbl.ellipsoid D with hell
  set nu := primeVertical ell phi with hnu
  set e2 := eccentricitySquared ell with he2
  have hnupos : 0 < nu := primeVertical_pos ell ha hf0 hf1 phi
  have he2lt : 0 < 1 - e2 := by
    have := eccentricitySquared_lt_one ell hf1
    linarith
  have hcos : 0 ≤ Real.cos phi := Real.cos_nonneg_of_mem_Icc ⟨hphi1, hphi2⟩
  -- the distance from the axis
  have hp : Real.sqrt ((nu * Real.cos phi * Real.cos lam) ^ 2 +
      (nu * Real.cos phi * Real.sin lam) ^ 2) = nu * Real.cos phi := by
    have : (nu * Real.cos phi * Real.cos lam) ^ 2 + (nu * Real.cos phi * Real.sin lam) ^ 2
        = (nu * Real.cos phi) ^ 2 := by
      have := Real.sin_sq_add_cos_sq lam
      nlinarith
    rw [this, Real.sqrt_sq (mul_nonneg hnupos.le hcos)]
  -- the initial estimate
  have hphi0 : atan2 ((1 - e2) * nu * Real.sin phi) (nu * Real.cos phi * (1 - e2)) = phi := by
    have := atan2_polar ((1 - e2) * nu) phi (mul_pos he2lt hnupos) (by linarith) (by linarith)
    rw [show nu * Real.cos phi * (1 - e2) = (1 - e2) * nu * Real.cos phi by ring]
    exact this
  -- the first step of the iteration
  have hstep : atan2 ((1 - e2) * nu * Real.sin phi + e2 * primeVertical ell phi * Real.sin phi)
      (nu * Real.cos phi) = phi := by
    have := atan2_polar nu phi hnupos (by linarith) (by linarith)
    rw [show (1 - e2) * nu * Real.sin phi + e2 * primeVertical ell phi * Real.sin phi
      = nu * Real.sin phi by rw [← hnu]; ring]
    exact this
  have hb : Point.bowring cfg ell ((1 - e2) * nu * Real.sin phi) (nu * Real.cos phi)
      (n + 1) phi = .ok phi :=
    bowring_fixed cfg ell _ _ n phi htol hstep
  -- the longitude
  have hlam : atan2 (nu * Real.cos phi * Real.sin lam) (nu * Real.cos phi * Real.cos lam)
      = if Real.cos phi = 0 then 0 else lam := by
    by_cases hc : Real.cos phi = 0
    · simp [hc, atan2_zero]
    · rw [if_neg hc]
      exact atan2_polar (nu * Real.cos phi) lam
        (mul_pos hnupos (lt_of_le_of_ne hcos (Ne.symm hc))) hlam1 hlam2
  -- the height
  have hh : (if |Real.cos phi| < cfg.poleGuard
      then (1 - e2) * nu * Real.sin phi / Real.sin phi - (1 - e2) * nu
      else nu * Real.cos phi / Real.cos phi - nu) = 0 := by
    split_ifs with hc
    · have hs : Real.sin phi ≠ 0 := by
        intro h0
        have h1 := Real.sin_sq_add_cos_sq phi
        rw [h0] at h1
        have h2 : Real.cos phi ^ 2 = 1 := by linarith
        have h3 : |Real.cos phi| = 1 := by
          rw [abs_of_nonneg hcos]
          nlinarith
        rw [h3] at hc
        linarith
      rw [mul_div_assoc, div_self hs]; ring
    · have hc0 : Real.cos phi ≠ 0 := by
        intro h0
        rw [h0, abs_zero] at hc
        exact hc hg0
      rw [mul_div_assoc, div_self hc0]; ring
  unfold Point.toPoint
  simp only [hn, ← hell, ← he2, hp, hphi0, hb, hlam, ← hnu, hh]

theorem curvature_mono_nonneg (E s1 s2 : ℝ) (hE0 : 0 ≤ E) (hE1 : E < 1)
    (h0 : 0 ≤ s1) (h : s1 ≤ s2) (h2 : s2 ≤ 1) :
    s1 / Real.sqrt (1 - E * s1 ^ 2) ≤ s2 / Real.sqrt (1 - E * s2 ^ 2) := by
  have hs2 : s2 ^ 2 ≤ 1 := by nlinarith
  have hs12 : s1 ^ 2 ≤ s2 ^ 2 := by nlinarith
  have hR2 : 0 < 1 - E * s2 ^ 2 := by nlinarith
  have hle : Real.sqrt (1 - E * s2 ^ 2) ≤ Real.sqrt (1 - E * s1 ^ 2) :=
    Real.sqrt_le_sqrt (by nlinarith)
  have hpos : 0 < Real.sqrt (1 - E * s2 ^ 2) := Real.sqrt_pos.mpr hR2
  calc s1 / Real.sqrt (1 - E * s1 ^ 2) ≤ s1 / Real.sqrt (1 - E * s2 ^ 2) :=
        div_le_div_of_nonneg_left h0 hpos hle
    _ ≤ s2 / Real.sqrt (1 - E * s2 ^ 2) := div_le_div_of_nonneg_right h hpos.le

theorem curvature_mono (E s1 s2 : ℝ) (hE0 : 0 ≤ E) (hE1 : E < 1)
    (h1 : -1 ≤ s1) (h : s1 ≤ s2) (h2 : s2 ≤ 1) :
    s1 / Real.sqrt (1 - E * s1 ^ 2) ≤ s2 / Real.sqrt (1 - E * s2 ^ 2) := by
  rcases le_total 0 s1 with hs1 | hs1
  · exact curvature_mono_nonneg E s1 s2 hE0 hE1 hs1 h h2
  · rcases le_total 0 s2 with hs2 | hs2
    · exact le_trans (div_nonpos_of_nonpos_of_nonneg hs1 (Real.sqrt_nonneg _))
        (div_nonneg hs2 (Real.sqrt_nonneg _))
    · have := curvature_mono_nonneg E (-s2) (-s1) hE0 hE1 (by linarith) (by linarith)
        (by linarith)
      simp only [neg_sq, neg_div] at this
      linarith

theorem bowringStep_range (ell : Ellipsoid) (z p phi : ℝ) (hp : 0 ≤ p) :
    -(Real.pi / 2) ≤ bowringStep ell z p phi ∧ bowringStep ell z p phi ≤ Real.pi / 2 :=
  atan2_range p _ hp

/-- The step grows with the latitude on `[-pi/2, pi/2]`. -/
theorem bowringStep_mono (ell : Ellipsoid) (z p phi1 phi2 : ℝ) (hp : 0 ≤ p)
    (ha : 0 < ell.a) (hf0 : 0 < ell.f) (hf1 : ell.f < 1)
    (h1 : -(Real.pi / 2) ≤ phi1) (h : phi1 ≤ phi2) (h2 : phi2 ≤ Real.pi / 2) :
    bowringStep ell z p phi1 ≤ bowringStep ell z p phi2 := by
  apply atan2_mono p _ _ hp
  have hE0 := eccentricitySquared_nonneg ell hf0 hf1
  have hE1 := eccentricitySquared_lt_one ell hf1
  have hsin : Real.sin phi1 ≤ Real.sin phi2 :=
    Real.sin_le_sin_of_le_of_le_pi_div_two h1 h2 h
  have hk := curvature_mono (eccentricitySquared ell) (Real.sin phi1) (Real.sin phi2)
    hE0 hE1 (Real.neg_one_le_sin _) hsin (Real.sin_le_one _)
  have e : ∀ phi, eccentricitySquared ell * primeVertical ell phi * Real.sin phi =
      eccentricitySquared ell * ell.a *
        (Real.sin phi / Real.sqrt (1 - eccentricitySquared ell * Real.sin phi ^ 2)) := by
    intro phi
    unfold primeVertical
    ring
  rw [e phi1, e phi2]
  have := mul_le_mul_of_nonneg_left hk (mul_nonneg hE0 ha.le)
  linarith

theorem bowring_unfold (cfg : Inversion) (ell : Ellipsoid) (z p : ℝ) (n : ℕ) (phi : ℝ) :
    Point.bowring cfg ell z p (n + 1) phi =
      if |bowringStep ell z p phi - phi| < cfg.tolerance then .ok (bowringStep ell z p phi)
      else Point.bowring cfg ell z p n (bowringStep ell z p phi) := rfl

/-- A rising iteration stops: every step that does not stop it raises the latitude
by at least the tolerance, and the latitude stays below `pi/2`. -/
theorem bowring_rising (cfg : Inversion) (ell : Ellipsoid) (z p : ℝ) (hp : 0 ≤ p)
    (ha : 0 < ell.a) (hf0 : 0 < ell.f) (hf1 : ell.f < 1) :
    ∀ (n : ℕ) (phi : ℝ), -(Real.pi / 2) ≤ phi → phi ≤ Real.pi / 2 →
      phi ≤ bowringStep ell z p phi → Real.pi / 2 - phi < n * cfg.tolerance →
      ∃ r, Point.bowring cfg ell z p n phi = .ok r := by
  intro n
  induction n with
  | zero =>
    intro phi _ h2 _ hpot
    simp at hpot
    linarith
  | succ n ih =>
    intro phi h1 h2 hup hpot
    rw [bowring_unfold]
    by_cases hstop : |bowringStep ell z p phi - phi| < cfg.tolerance
    · exact ⟨_, if_pos hstop⟩
    · rw [if_neg hstop]
      have hr := bowringStep_range ell z p phi hp
      have hjump : cfg.tolerance ≤ bowringStep ell z p phi - phi := by
        rw [abs_of_nonneg (by linarith)] at hstop
        exact not_lt.mp hstop
      apply ih _ hr.1 hr.2
      · exact bowringStep_mono ell z p _ _ hp ha hf0 hf1 h1 hup hr.2
      · push_cast at hpot
        linarith

/-- A falling iteration stops, for the same reason. -/
theorem bowring_falling (cfg : Inversion) (ell : Ellipsoid) (z p : ℝ) (hp : 0 ≤ p)
    (ha : 0 < ell.a) (hf0 : 0 < ell.f) (hf1 : ell.f < 1) :
    ∀ (n : ℕ) (phi : ℝ), -(Real.pi / 2) ≤ phi → phi ≤ Real.pi / 2 →
      bowringStep ell z p phi ≤ phi → phi + Real.pi / 2 < n * cfg.tolerance →
      ∃ r, Point.bowring cfg ell z p n phi = .ok r := by
  intro n
  induction n with
  | zero =>
    intro phi h1 _ _ hpot
    simp at hpot
    linarith
  | succ n ih =>
    intro phi h1 h2 hdown hpot
    rw [bowring_unfold]
    by_cases hstop : |bowringStep ell z p phi - phi| < cfg.tolerance
    · exact ⟨_, if_pos hstop⟩
    · rw [if_neg hstop]
      have hr := bowringStep_range ell z p phi hp
      have hjump : cfg.tolerance ≤ phi - bowringStep ell z p phi := by
        rw [abs_of_nonpos (by linarith)] at hstop
        have := not_lt.mp hstop
        linarith
      apply ih _ hr.1 hr.2
      · exact bowringStep_mono ell z p _ _ hp ha hf0 hf1 hr.1 hdown h2
      · push_cast at hpot
        linarith

/-- With a cap above `pi / tolerance` the iteration stops before the cap from
every starting latitude in `[-pi/2, pi/2]`. -/
theorem bowring_stops (cfg : Inversion) (ell : Ellipsoid) (z p phi : ℝ) (hp : 0 ≤ p)
    (ha : 0 < ell.a) (hf0 : 0 < ell.f) (hf1 : ell.f < 1)
    (hcap : Real.pi < cfg.maxIterations * cfg.tolerance)
    (h1 : -(Real.pi / 2) ≤ phi) (h2 : phi ≤ Real.pi / 2) :
    ∃ r, Point.bowring cfg ell z p cfg.maxIterations phi = .ok r := by
  rcases le_total phi (bowringStep ell z p phi) with h | h
  · exact bowring_rising cfg ell z p hp ha hf0 hf1 _ phi h1 h2 h (by linarith)
  · exact bowring_falling cfg ell z p hp ha hf0 hf1 _ phi h1 h2 h (by linarith)

/-- With a cap above `pi / tolerance`, `toPoint` returns a point for every vector,
and the point is tagged with the datum asked for. -/
theorem toPoint_total (cfg : Inversion) (tbl : DatumTable) (v : Vector3d) (D : Datum)
    (ha : 0 < (tbl.ellipsoid D).a) (hf0 : 0 < (tbl.ellipsoid D).f)
    (hf1 : (tbl.ellipsoid D).f < 1)
    (hcap : Real.pi < cfg.maxIterations * cfg.tolerance) :
    ∃ q, Point.toPoint cfg tbl v D = .ok q ∧ q.m_datum = D := by
  have hp : 0 ≤ Real.sqrt (v.x ^ 2 + v.y ^ 2) := Real.sqrt_nonneg _
  have he : 0 ≤ 1 - eccentricitySquared (tbl.ellipsoid D) := by
    have := eccentricitySquared_lt_one (tbl.ellipsoid D) hf1
    linarith
  have h0 := atan2_range (Real.sqrt (v.x ^ 2 + v.y ^ 2) *
    (1 - eccentricitySquared (tbl.ellipsoid D))) v.z (mul_nonneg hp he)
  obtain ⟨r, hr⟩ := bowring_stops cfg (tbl.ellipsoid D) v.z (Real.sqrt (v.x ^ 2 + v.y ^ 2))
    _ hp ha hf0 hf1 hcap h0.1 h0.2
  unfold Point.toPoint
  simp only [hr]
  exact ⟨_, rfl, rfl⟩

/-- Whatever the constants of the inversion, a point that `toPoint` returns is
tagged with the datum asked for. -/
theorem toPoint_datum (cfg : Inversion) (tbl : DatumTable) (v : Vector3d) (D : Datum)
    (q : Point) (h : Point.toPoint cfg tbl v D = .ok q) : q.m_datum = D := by
  unfold Point.toPoint at h
  simp only [] at h
  split at h
  · cases h
  · injection h with h
    rw [← h]

end ellipsoidal

/-- On the surface of the ellipsoid the inversion undoes `toCartesian` exactly:
for a point of height `0` on an ellipsoid with `a > 0` and `0 < f < 1`, latitude
in `[-90, 90]` and longitude in `(-180, 180]`, and for a positive tolerance, a
cap of at least one iteration and a pole guard in `(0, 1]`, the point returned
has the datum, the latitude and the height of the point, and its longitude when
the latitude is strictly between `-90` and `90`. -/
theorem toPoint_toCartesian_surface (cfg : ellipsoidal.Inversion)
    (tbl : ellipsoidal.DatumTable) (p : ellipsoidal.Point)
    (htol : 0 < cfg.tolerance) (hcap : 1 ≤ cfg.maxIterations)
    (hg0 : 0 < cfg.poleGuard) (hg1 : cfg.poleGuard ≤ 1)
    (ha : 0 < (tbl.ellipsoid p.datum).a) (hf0 : 0 < (tbl.ellipsoid p.datum).f)
    (hf1 : (tbl.ellipsoid p.datum).f < 1)
    (hh : p.m_height = 0)
    (hlat1 : -90 ≤ p.m_latitude.degrees) (hlat2 : p.m_latitude.degrees ≤ 90)
    (hlon1 : -180 < p.m_longitude.degrees) (hlon2 : p.m_longitude.degrees ≤ 180) :
    ∃ q, ellipsoidal.Point.toPoint cfg tbl (p.toCartesian tbl).1 p.datum = .ok q ∧
      q.datum = p.datum ∧
      q.m_latitude.degrees = p.m_latitude.degrees ∧
      q.m_height = p.m_height ∧
      (-90 < p.m_latitude.degrees → p.m_latitude.degrees < 90 →
        q.m_longitude.degrees = p.m_longitude.degrees) := by
  have hpi := Real.pi_pos
  have hround : ∀ d : ℝ, Coordinate.toDegrees (d * Coordinate.pi / 180) = d := by
    intro d
    unfold Coordinate.toDegrees Coordinate.pi
    field_simp
  have hphi1 : -(Real.pi / 2) ≤ p.m_latitude.radians := by
    unfold Coordinate.radians Coordinate.pi
    have : (-90 : ℝ) ≤ p.m_latitude.m_degrees := hlat1
    nlinarith
  have hphi2 : p.m_latitude.radians ≤ Real.pi / 2 := by
    unfold Coordinate.radians Coordinate.pi
    have : p.m_latitude.m_degrees ≤ 90 := hlat2
    nlinarith
  have hlam1 : -Real.pi < p.m_longitude.radians := by
    unfold Coordinate.radians Coordinate.pi
    have : (-180 : ℝ) < p.m_longitude.m_degrees := hlon1
    nlinarith
  have hlam2 : p.m_longitude.radians ≤ Real.pi := by
    unfold Coordinate.radians Coordinate.pi
    have : p.m_longitude.m_degrees ≤ 180 := hlon2
    nlinarith
  have hs := ellipsoidal.toPoint_surface cfg tbl p.datum p.m_latitude.radians
    p.m_longitude.radians htol hcap hg0 hg1 ha hf0 hf1 hphi1 hphi2 hlam1 hlam2
  have hv : (p.toCartesian tbl).1 =
      ⟨ellipsoidal.primeVertical (tbl.ellipsoid p.datum) p.m_latitude.radians
          * Real.cos p.m_latitude.radians * Real.cos p.m_longitude.radians,
       ellipsoidal.primeVertical (tbl.ellipsoid p.datum) p.m_latitude.radians
          * Real.cos p.m_latitude.radians * Real.sin p.m_longitude.radians,
       (1 - ellipsoidal.eccentricitySquared (tbl.ellipsoid p.datum))
          * ellipsoidal.primeVertical (tbl.ellipsoid p.datum) p.m_latitude.radians
          * Real.sin p.m_latitude.radians⟩ := by
    unfold ellipsoidal.Point.toCartesian
    simp only [hh, add_zero]
    rfl
  rw [hv, hs]
  refine ⟨_, rfl, rfl, ?_, hh.symm, ?_⟩
  · exact hround p.m_latitude.m_degrees
  · intro h1 h2
    have hc : Real.cos p.m_latitude.radians ≠ 0 := by
      apply ne_of_gt
      apply Real.cos_pos_of_mem_Ioo
      unfold Coordinate.radians Coordinate.pi
      have h1 : (-90 : ℝ) < p.m_latitude.m_degrees := h1
      have h2 : p.m_latitude.m_degrees < 90 := h2
      constructor <;> nlinarith
    show Coordinate.toDegrees (if Real.cos p.m_latitude.radians = 0 then 0
      else p.m_longitude.radians) = p.m_longitude.m_degrees
    rw [if_neg hc]
    exact hround p.m_longitude.m_degrees

/-! ## Facts about the spherical formulas -/

theorem sphericalDistanceTo_eq (p q : Point) (R : ℝ) :
    p.sphericalDistanceTo q R =
      R * (2 * atan2 (Real.sqrt (p.haversine q)) (Real.sqrt (1 - p.haversine q))) := by
  unfold Point.sphericalDistanceTo Point.haversine
  norm_num

theorem sphericalBearingTo_eq (p q : Point) :
    p.sphericalBearingTo q = fmod (p.bearingAngle q + 360) 360 := by
  unfold Point.sphericalBearingTo Point.bearingAngle
  norm_num

theorem sin_half_mul_self (x : ℝ) :
    Real.sin (x / 2) * Real.sin (x / 2) = (1 - Real.cos x) / 2 := by
  have h := Real.cos_two_mul (x / 2)
  rw [show 2 * (x / 2) = x by ring, Real.cos_sq'] at h
  nlinarith

/-- The haversine is half of one minus the cosine of the central angle, the
cosine being given by the spherical law of cosines. -/
theorem haversine_eq (p q : Point) :
    p.haversine q = (1 - (Real.sin p.m_latitude.radians * Real.sin q.m_latitude.radians +
      Real.cos p.m_latitude.radians * Real.cos q.m_latitude.radians *
        Real.cos (q.m_longitude.radians - p.m_longitude.radians))) / 2 := by
  unfold Point.haversine Point.latitude Point.longitude
  simp only []
  rw [show ((2.0 : ℝ)) = 2 by norm_num]
  have h1 := sin_half_mul_self (q.m_latitude.radians - p.m_latitude.radians)
  have h2 := sin_half_mul_self (q.m_longitude.radians - p.m_longitude.radians)
  have h3 := Real.cos_sub q.m_latitude.radians p.m_latitude.radians
  rw [mul_assoc (Real.cos p.m_latitude.radians * Real.cos q.m_latitude.radians), h1, h2, h3]
  ring

/-- The cosine of the central angle is a cosine: it lies in `[-1, 1]`. -/
theorem central_cos_mem (s1 c1 s2 c2 c : ℝ) (h1 : s1 ^ 2 + c1 ^ 2 = 1)
    (h2 : s2 ^ 2 + c2 ^ 2 = 1) (hc1 : -1 ≤ c) (hc2 : c ≤ 1) :
    -1 ≤ s1 * s2 + c1 * c2 * c ∧ s1 * s2 + c1 * c2 * c ≤ 1 := by
  have e1 : 0 ≤ 1 - (c1 * c2 + s1 * s2) := by nlinarith [sq_nonneg (c1 - c2), sq_nonneg (s1 - s2)]
  have e2 : 0 ≤ 1 + (c1 * c2 - s1 * s2) := by nlinarith [sq_nonneg (c1 + c2), sq_nonneg (s1 - s2)]
  have e3 : 0 ≤ 1 + (c1 * c2 + s1 * s2) := by nlinarith [sq_nonneg (c1 + c2), sq_nonneg (s1 + s2)]
  have e4 : 0 ≤ 1 - (c1 * c2 - s1 * s2) := by nlinarith [sq_nonneg (c1 - c2), sq_nonneg (s1 + s2)]
  constructor
  · nlinarith [mul_nonneg (by linarith : (0 : ℝ) ≤ 1 + c) e3,
      mul_nonneg (by linarith : (0 : ℝ) ≤ 1 - c) e4]
  · nlinarith [mul_nonneg (by linarith : (0 : ℝ) ≤ 1 + c) e1,
      mul_nonneg (by linarith : (0 : ℝ) ≤ 1 - c) e2]

theorem haversine_mem (p q : Point) : 0 ≤ p.haversine q ∧ p.haversine q ≤ 1 := by
  rw [haversine_eq]
  have h := central_cos_mem (Real.sin p.m_latitude.radians) (Real.cos p.m_latitude.radians)
    (Real.sin q.m_latitude.radians) (Real.cos q.m_latitude.radians)
    (Real.cos (q.m_longitude.radians - p.m_longitude.radians))
    (Real.sin_sq_add_cos_sq _) (Real.sin_sq_add_cos_sq _)
    (Real.neg_one_le_cos _) (Real.cos_le_one _)
  constructor <;> linarith [h.1, h.2]

/-- On the quarter circle `atan2 (sqrt a) (sqrt (1 - a))` is `arcsin (sqrt a)`. -/
theorem atan2_sqrt (a : ℝ) (h0 : 0 ≤ a) (h1 : a ≤ 1) :
    atan2 (Real.sqrt a) (Real.sqrt (1 - a)) = Real.arcsin (Real.sqrt a) := by
  unfold atan2
  rw [Complex.arg_of_re_nonneg (show 0 ≤ (⟨Real.sqrt (1 - a), Real.sqrt a⟩ : ℂ).re
    from Real.sqrt_nonneg _)]
  simp only [Complex.abs_apply, Complex.normSq_mk]
  rw [Real.mul_self_sqrt (by linarith), Real.mul_self_sqrt h0]
  norm_num

theorem arcsin_sqrt_mem (a : ℝ) :
    0 ≤ Real.arcsin (Real.sqrt a) ∧ Real.arcsin (Real.sqrt a) ≤ Real.pi / 2 :=
  ⟨Real.arcsin_nonneg.mpr (Real.sqrt_nonneg _), Real.arcsin_le_pi_div_two _⟩

theorem two_arcsin_sqrt (a : ℝ) (h0 : 0 ≤ a) (h1 : a ≤ 1) :
    2 * Real.arcsin (Real.sqrt a) = Real.arccos (1 - 2 * a) := by
  have hm := arcsin_sqrt_mem a
  have hs : Real.sin (Real.arcsin (Real.sqrt a)) = Real.sqrt a :=
    Real.sin_arcsin (by linarith [Real.sqrt_nonneg a])
      (by rw [Real.sqrt_le_left (by norm_num)]; linarith)
  have hc : Real.cos (2 * Real.arcsin (Real.sqrt a)) = 1 - 2 * a := by
    rw [Real.cos_two_mul, Real.cos_sq', hs, Real.sq_sqrt h0]
    ring
  rw [← hc, Real.arccos_cos (by linarith [hm.1]) (by linarith [hm.2])]

theorem haversine_comm (p q : Point) : p.haversine q = q.haversine p := by
  rw [haversine_eq, haversine_eq,
    show q.m_longitude.radians - p.m_longitude.radians =
      -(p.m_longitude.radians - q.m_longitude.radians) by ring, Real.cos_neg]
  ring

theorem haversine_same (p q : Point)
    (hlat : q.m_latitude.m_degrees = p.m_latitude.m_degrees)
    (hlon : q.m_longitude.m_degrees = p.m_longitude.m_degrees) : p.haversine q = 0 := by
  have e1 : q.m_latitude.radians = p.m_latitude.radians := by
    unfold Coordinate.radians; rw [hlat]
  have e2 : q.m_longitude.radians = p.m_longitude.radians := by
    unfold Coordinate.radians; rw [hlon]
  rw [haversine_eq, e1, e2, sub_self, Real.cos_zero]
  have := Real.sin_sq_add_cos_sq p.m_latitude.radians
  nlinarith

/-- The central angle `c` of `sphericalDistanceTo` is twice an arcsine. -/
theorem central_angle_eq (p q : Point) :
    2 * atan2 (Real.sqrt (p.haversine q)) (Real.sqrt (1 - p.haversine q)) =
      2 * Real.arcsin (Real.sqrt (p.haversine q)) := by
  rw [atan2_sqrt _ (haversine_mem p q).1 (haversine_mem p q).2]

theorem fmod_turn_of_nonneg (theta : ℝ) (h0 : 0 ≤ theta) (h1 : theta ≤ 180) :
    fmod (theta + 360) 360 = theta := by
  rw [fmod_of_nonneg _ (by linarith)]
  have hf : ⌊(theta + 360) / 360⌋ = 1 := by
    rw [Int.floor_eq_iff]
    constructor
    · rw [le_div_iff₀ (by norm_num)]
      norm_num
      linarith
    · rw [div_lt_iff₀ (by norm_num)]
      norm_num
      linarith
  rw [hf]
  norm_num

theorem fmod_turn_of_neg (theta : ℝ) (h0 : -180 < theta) (h1 : theta < 0) :
    fmod (theta + 360) 360 = theta + 360 := by
  rw [fmod_of_nonneg _ (by linarith)]
  have hf : ⌊(theta + 360) / 360⌋ = 0 := by
    rw [Int.floor_eq_iff]
    constructor
    · simp only [Int.cast_zero]
      apply div_nonneg <;> linarith
    · rw [div_lt_iff₀ (by norm_num)]
      norm_num
      linarith
  rw [hf]
  norm_num

theorem bearingAngle_mem (p q : Point) : -180 < p.bearingAngle q ∧ p.bearingAngle q ≤ 180 :=
  toDegrees_atan2_mem _ _

/-- Along a meridian the abscissa given to `atan2` is the sine of the difference
of the latitudes and the ordinate is zero. -/
theorem bearingAngle_meridian (p q : Point)
    (hlon : q.m_longitude.m_degrees = p.m_longitude.m_degrees) :
    p.bearingAngle q = Coordinate.toDegrees
      (atan2 0 (Real.sin (q.m_latitude.radians - p.m_latitude.radians))) := by
  have e : q.longitude.radians - p.longitude.radians = 0 := by
    unfold Coordinate.radians Point.longitude
    rw [hlon, sub_self]
  unfold Point.bearingAngle
  simp only [e, Real.sin_zero, Real.cos_zero, zero_mul, mul_one]
  rw [Real.sin_sub]
  unfold Point.latitude
  ring_nf

theorem atan2_zero_of_nonneg (x : ℝ) (hx : 0 ≤ x) : atan2 0 x = 0 := by
  unfold atan2
  have : (⟨x, 0⟩ : ℂ) = (x : ℂ) := rfl
  rw [this, Complex.arg_ofReal_of_nonneg hx]

theorem atan2_zero_of_neg (x : ℝ) (hx : x < 0) : atan2 0 x = Real.pi := by
  unfold atan2
  have : (⟨x, 0⟩ : ℂ) = (x : ℂ) := rfl
  rw [this, Complex.arg_ofReal_of_neg hx]

/-- Along a meridian, away from the pair of poles: for two points of equal
longitude with latitudes in `[-90, 90]` the bearing is `0` when the destination
is further north, and `180` when it is further south and the latitudes differ by
less than `180` degrees. -/
theorem sphericalBearingTo_meridian (p q : Point)
    (hlon : q.longitude.degrees = p.longitude.degrees)
    (hp1 : -90 ≤ p.latitude.degrees) (hp2 : p.latitude.degrees ≤ 90)
    (hq1 : -90 ≤ q.latitude.degrees) (hq2 : q.latitude.degrees ≤ 90) :
    (p.latitude.degrees < q.latitude.degrees → p.sphericalBearingTo q = 0) ∧
    (q.latitude.degrees < p.latitude.degrees →
      p.latitude.degrees - q.latitude.degrees < 180 → p.sphericalBearingTo q = 180) := by
  have hpi := Real.pi_pos
  have hp1 : (-90 : ℝ) ≤ p.m_latitude.m_degrees := hp1
  have hp2 : p.m_latitude.m_degrees ≤ 90 := hp2
  have hq1 : (-90 : ℝ) ≤ q.m_latitude.m_degrees := hq1
  have hq2 : q.m_latitude.m_degrees ≤ 90 := hq2
  have hd : q.m_latitude.radians - p.m_latitude.radians =
      (q.m_latitude.m_degrees - p.m_latitude.m_degrees) * (Real.pi / 180) := by
    unfold Coordinate.radians Coordinate.pi
    ring
  have hk : (0 : ℝ) < Real.pi / 180 := by positivity
  rw [sphericalBearingTo_eq, bearingAngle_meridian p q hlon]
  constructor
  · intro h
    have h : p.m_latitude.m_degrees < q.m_latitude.m_degrees := h
    have hs : 0 ≤ Real.sin (q.m_latitude.radians - p.m_latitude.radians) := by
      apply Real.sin_nonneg_of_nonneg_of_le_pi
      · rw [hd]
        exact mul_nonneg (by linarith) hk.le
      · rw [hd]
        nlinarith
    rw [atan2_zero_of_nonneg _ hs]
    have : Coordinate.toDegrees 0 = 0 := by simp [Coordinate.toDegrees]
    rw [this]
    exact fmod_turn_of_nonneg 0 le_rfl (by norm_num)
  · intro h hlt
    have h : q.m_latitude.m_degrees < p.m_latitude.m_degrees := h
    have hlt : p.m_latitude.m_degrees - q.m_latitude.m_degrees < 180 := hlt
    have hs : Real.sin (q.m_latitude.radians - p.m_latitude.radians) < 0 := by
      apply Real.sin_neg_of_neg_of_neg_pi_lt
      · rw [hd]
        exact mul_neg_of_neg_of_pos (by linarith) hk
      · rw [hd]
        nlinarith
    rw [atan2_zero_of_neg _ hs]
    have : Coordinate.toDegrees Real.pi = 180 := by
      unfold Coordinate.toDegrees Coordinate.pi
      field_simp
    rw [this]
    exact fmod_turn_of_nonneg 180 (by norm_num) le_rfl

/-! ## The claims -/

/-- C8: for every pair of points the final bearing is the initial bearing from the
destination back to the start, reversed by 180 degrees with `fmod`, and it lies
in `[0, 360)`. -/
theorem sphericalFinalBearingTo_reverse (p q : Point) :
    p.sphericalFinalBearingTo q = fmod (q.sphericalBearingTo p + 180) 360 ∧
    0 ≤ p.sphericalFinalBearingTo q ∧ p.sphericalFinalBearingTo q < 360 := by
  have h := sphericalBearingTo_mem q p
  have e : p.sphericalFinalBearingTo q = fmod (q.sphericalBearingTo p + 180) 360 := by
    unfold Point.sphericalFinalBearingTo
    norm_num
  rw [e]
  exact ⟨rfl, fmod_nonneg _ (by linarith [h.1]), fmod_lt _ (by linarith [h.1])⟩

/-- C5: a coordinate built from `d` reports `d` degrees and `d * pi / 180`
radians, the same value as the static `toRadians d`, and `toDegrees` undoes
`toRadians`. -/
theorem coordinate_units (d : ℝ) :
    (Coordinate.mk d).degrees = d ∧
    (Coordinate.mk d).radians = d * Real.pi / 180 ∧
    (Coordinate.mk d).radians = Coordinate.toRadians d ∧
    Coordinate.toDegrees (Coordinate.toRadians d) = d := by
  refine ⟨rfl, rfl, rfl, ?_⟩
  unfold Coordinate.toDegrees Coordinate.toRadians Coordinate.pi
  field_simp

/-- C2: `toCartesian` returns the vector of the geodetic-to-geocentric formulas for
the ellipsoid of the point's datum, with `e2 = 2f - f^2` and
`nu = a / sqrt(1 - e2 sin^2 phi)`, and the point is the same after the call. -/
theorem toCartesian_formula (tbl : ellipsoidal.DatumTable) (p : ellipsoidal.Point) :
    let a := (tbl.ellipsoid p.datum).a
    let f := (tbl.ellipsoid p.datum).f
    let phi := p.m_latitude.degrees * Real.pi / 180
    let lambda := p.m_longitude.degrees * Real.pi / 180
    let h := p.m_height
    let e2 := 2 * f - f ^ 2
    let nu := a / Real.sqrt (1 - e2 * Real.sin phi ^ 2)
    (p.toCartesian tbl).1 =
      ⟨(nu + h) * Real.cos phi * Real.cos lambda,
       (nu + h) * Real.cos phi * Real.sin lambda,
       ((1 - e2) * nu + h) * Real.sin phi⟩ ∧
    (p.toCartesian tbl).2 = p := by
  intro a f phi lambda h e2 nu
  exact ⟨rfl, rfl⟩

/-- C1: converting a point to the datum it already has changes nothing: the call
succeeds, latitude, longitude, height and datum tag are the ones before the
call, and the returned point is that same point. -/
theorem convertToDatum_same (cfg : ellipsoidal.Inversion) (tbl : ellipsoidal.DatumTable)
    (p : ellipsoidal.Point) :
    ∃ q, p.convertToDatum cfg tbl p.datum = .ok q ∧
      q.m_latitude = p.m_latitude ∧ q.m_longitude = p.m_longitude ∧
      q.m_height = p.m_height ∧ q.datum = p.datum ∧ q = p := by
  refine ⟨p, ?_, rfl, rfl, rfl, rfl, rfl⟩
  unfold ellipsoidal.Point.convertToDatum ellipsoidal.Point.datum
  rw [if_pos rfl]

/-- C10: on an ellipsoid with `a > 0` and `0 < f < 1` the radicand
`1 - e2 sin^2 phi` is strictly positive at every latitude, so its square root
and `nu` are positive; at latitude `90` the vector is `(0, 0, a (1 - f) + h)`
and at latitude `-90` it is `(0, 0, -(a (1 - f) + h))`. -/
theorem toCartesian_defined (tbl : ellipsoidal.DatumTable) (p : ellipsoidal.Point)
    (ha : 0 < (tbl.ellipsoid p.datum).a)
    (hf0 : 0 < (tbl.ellipsoid p.datum).f) (hf1 : (tbl.ellipsoid p.datum).f < 1) :
    let a := (tbl.ellipsoid p.datum).a
    let f := (tbl.ellipsoid p.datum).f
    let phi := p.m_latitude.degrees * Real.pi / 180
    let e2 := 2 * f - f ^ 2
    0 < 1 - e2 * Real.sin phi ^ 2 ∧
    0 < Real.sqrt (1 - e2 * Real.sin phi ^ 2) ∧
    0 < a / Real.sqrt (1 - e2 * Real.sin phi ^ 2) ∧
    (p.m_latitude.degrees = 90 →
      (p.toCartesian tbl).1 = ⟨0, 0, a * (1 - f) + p.m_height⟩) ∧
    (p.m_latitude.degrees = -90 →
      (p.toCartesian tbl).1 = ⟨0, 0, -(a * (1 - f) + p.m_height)⟩) := by
  intro a f phi e2
  have hrad := ellipsoidal.radicand_pos (tbl.ellipsoid p.datum) hf0 hf1 phi
  have hf : (1 : ℝ) - f ≠ 0 := by
    have : 0 < 1 - f := by simpa [f] using sub_pos.mpr hf1
    exact ne_of_gt this
  refine ⟨hrad, Real.sqrt_pos.mpr hrad, div_pos ha (Real.sqrt_pos.mpr hrad), ?_, ?_⟩
  · intro h90
    have hphi : p.m_latitude.radians = Real.pi / 2 := by
      unfold Coordinate.radians Coordinate.pi
      have : p.m_latitude.m_degrees = 90 := h90
      rw [this]; ring
    have hnu := ellipsoidal.primeVertical_of_sin_sq_one (tbl.ellipsoid p.datum) hf1
      (Real.pi / 2) (by rw [Real.sin_pi_div_two]; norm_num)
    unfold ellipsoidal.Point.toCartesian
    simp only [hphi]
    rw [show p.m_datum = p.datum from rfl, hnu, ellipsoidal.one_sub_eccentricitySquared,
      Real.cos_pi_div_two, Real.sin_pi_div_two]
    simp only [ellipsoidal.Vector3d.mk.injEq]
    refine ⟨by ring, by ring, ?_⟩
    show ((1 - f) ^ 2 * (a / (1 - f)) + p.m_height) * 1 = a * (1 - f) + p.m_height
    field_simp
    ring
  · intro h90
    have hphi : p.m_latitude.radians = -(Real.pi / 2) := by
      unfold Coordinate.radians Coordinate.pi
      have : p.m_latitude.m_degrees = -90 := h90
      rw [this]; ring
    have hnu := ellipsoidal.primeVertical_of_sin_sq_one (tbl.ellipsoid p.datum) hf1
      (-(Real.pi / 2)) (by rw [Real.sin_neg, Real.sin_pi_div_two]; norm_num)
    unfold ellipsoidal.Point.toCartesian
    simp only [hphi]
    rw [show p.m_datum = p.datum from rfl, hnu, ellipsoidal.one_sub_eccentricitySquared,
      Real.cos_neg, Real.sin_neg, Real.cos_pi_div_two, Real.sin_pi_div_two]
    simp only [ellipsoidal.Vector3d.mk.injEq]
    refine ⟨by ring, by ring, ?_⟩
    show ((1 - f) ^ 2 * (a / (1 - f)) + p.m_height) * -1 = -(a * (1 - f) + p.m_height)
    field_simp
    ring

/-- C10, at the north pole of the WGS84 ellipsoid. -/
theorem toCartesian_defined_witness :
    (0 : ℝ) < 6378137.0 ∧ (0 : ℝ) < 1 / 298.257223563 ∧ (1 : ℝ) / 298.257223563 < 1 ∧
    ((⟨⟨⟨90⟩⟩, ⟨⟨0⟩⟩, 0, .WGS84⟩ : ellipsoidal.Point).toCartesian ellipsoidal.wgs84Table).1 =
      ⟨0, 0, 6378137.0 * (1 - 1 / 298.257223563) + 0⟩ :=
  ⟨by norm_num, by norm_num, by norm_num,
    (toCartesian_defined ellipsoidal.wgs84Table ⟨⟨⟨90⟩⟩, ⟨⟨0⟩⟩, 0, .WGS84⟩
      (by norm_num [ellipsoidal.wgs84Table, ellipsoidal.wgs84Ellipsoid])
      (by norm_num [ellipsoidal.wgs84Table, ellipsoidal.wgs84Ellipsoid])
      (by norm_num [ellipsoidal.wgs84Table, ellipsoidal.wgs84Ellipsoid])).2.2.2.1 rfl⟩

/-- C6: for every real `d` the latitude built from `d` has its degrees in
`[-90, 90]` and the longitude built from `d` has its degrees in `(-180, 180]`;
a value already in the range of a latitude, or of a longitude, is stored
unchanged. -/
theorem construct_range (d : ℝ) :
    (-90 ≤ (Latitude.construct d).degrees ∧ (Latitude.construct d).degrees ≤ 90) ∧
    (-180 < (Longitude.construct d).degrees ∧ (Longitude.construct d).degrees ≤ 180) ∧
    (-90 ≤ d → d ≤ 90 → (Latitude.construct d).degrees = d) ∧
    (-180 < d → d ≤ 180 → (Longitude.construct d).degrees = d) :=
  ⟨wrap90_mem d, wrap180_mem d, wrap90_of_mem d, wrap180_of_mem d⟩

/-- C4: for every point and every destination datum, equal to the point's datum
or not, WGS84 or not, the point that `convertToDatum` returns, which is the
receiver after the call, is tagged with the destination datum; the call to the
point's own datum always returns; no failure comes from the datum pair, the only
one being the non-convergence of the inversion between two different datums;
and when the ellipsoid of the destination has `a > 0` and `0 < f < 1` and the
iteration cap is above `pi / tolerance`, the call returns for every point and
every pair of datums. -/
theorem convertToDatum_datum (cfg : ellipsoidal.Inversion) (tbl : ellipsoidal.DatumTable)
    (p : ellipsoidal.Point) (D : ellipsoidal.Datum) :
    (∀ q, p.convertToDatum cfg tbl D = .ok q → q.datum = D) ∧
    (p.datum = D → p.convertToDatum cfg tbl D = .ok p) ∧
    (∀ e, p.convertToDatum cfg tbl D = .error e → e = .nonConvergence ∧ p.datum ≠ D) ∧
    (0 < (tbl.ellipsoid D).a → 0 < (tbl.ellipsoid D).f → (tbl.ellipsoid D).f < 1 →
      Real.pi < cfg.maxIterations * cfg.tolerance →
      ∃ q, p.convertToDatum cfg tbl D = .ok q ∧ q.datum = D) := by
  by_cases h : p.m_datum = D
  · have e : p.convertToDatum cfg tbl D = .ok p := by
      unfold ellipsoidal.Point.convertToDatum
      rw [if_pos h]
    rw [e]
    refine ⟨?_, fun _ => rfl, ?_, fun _ _ _ _ => ⟨p, rfl, h⟩⟩
    · intro q hq
      injection hq with hq
      rw [← hq]
      exact h
    · intro e he
      cases he
  · obtain ⟨v, e⟩ : ∃ v, p.convertToDatum cfg tbl D = ellipsoidal.Point.toPoint cfg tbl v D := by
      unfold ellipsoidal.Point.convertToDatum
      rw [if_neg h]
      exact ⟨_, rfl⟩
    rw [e]
    refine ⟨?_, fun h2 => absurd h2 h, ?_, ?_⟩
    · intro q hq
      exact ellipsoidal.toPoint_datum cfg tbl v D q hq
    · intro e _
      cases e
      exact ⟨rfl, h⟩
    · intro ha hf0 hf1 hcap
      exact ellipsoidal.toPoint_total cfg tbl v D ha hf0 hf1 hcap

/-- C4, for the point of latitude `51.4778` and longitude `-0.0016` on NAD83
converted to WGS84 with a cap above `pi / tolerance`. -/
theorem convertToDatum_datum_witness :
    ∃ q, (⟨⟨⟨51.4778⟩⟩, ⟨⟨-0.0016⟩⟩, 0, .NAD83⟩ : ellipsoidal.Point).convertToDatum
        ellipsoidal.thoroughInversion ellipsoidal.wgs84Table .WGS84 = .ok q ∧
      q.datum = .WGS84 :=
  (convertToDatum_datum ellipsoidal.thoroughInversion ellipsoidal.wgs84Table
    ⟨⟨⟨51.4778⟩⟩, ⟨⟨-0.0016⟩⟩, 0, .NAD83⟩ .WGS84).2.2.2
    (by norm_num [ellipsoidal.wgs84Table, ellipsoidal.wgs84Ellipsoid])
    (by norm_num [ellipsoidal.wgs84Table, ellipsoidal.wgs84Ellipsoid])
    (by norm_num [ellipsoidal.wgs84Table, ellipsoidal.wgs84Ellipsoid])
    (by
      have := Real.pi_lt_d2
      norm_num [ellipsoidal.thoroughInversion]
      linarith)

/-- C11: the haversine distance is the great-circle distance of the spherical law
of cosines, `R * arccos(sin phi1 sin phi2 + cos phi1 cos phi2 cos dLambda)`, for
all points and every radius, and the intermediate quantity `a` is in `[0, 1]`. -/
theorem sphericalDistanceTo_law_of_cosines (p q : Point) (R : ℝ) :
    let phi1 := p.latitude.radians
    let phi2 := q.latitude.radians
    let dLambda := q.longitude.radians - p.longitude.radians
    p.sphericalDistanceTo q R =
      R * Real.arccos (Real.sin phi1 * Real.sin phi2 +
        Real.cos phi1 * Real.cos phi2 * Real.cos dLambda) ∧
    0 ≤ p.haversine q ∧ p.haversine q ≤ 1 := by
  intro phi1 phi2 dLambda
  have hm := haversine_mem p q
  refine ⟨?_, hm.1, hm.2⟩
  rw [sphericalDistanceTo_eq, central_angle_eq, two_arcsin_sqrt _ hm.1 hm.2, haversine_eq]
  congr 2
  show 1 - 2 * ((1 - (Real.sin phi1 * Real.sin phi2 +
    Real.cos phi1 * Real.cos phi2 * Real.cos dLambda)) / 2) = _
  ring

/-- C12: the haversine distance is symmetric in the two points. -/
theorem sphericalDistanceTo_symm (p q : Point) (R : ℝ) :
    p.sphericalDistanceTo q R = q.sphericalDistanceTo p R := by
  rw [sphericalDistanceTo_eq, sphericalDistanceTo_eq, haversine_comm p q]

/-- C13: for a radius `R >= 0` the haversine distance is between `0` and
`pi * R`. -/
theorem sphericalDistanceTo_bounds (p q : Point) (R : ℝ) (hR : 0 ≤ R) :
    0 ≤ p.sphericalDistanceTo q R ∧ p.sphericalDistanceTo q R ≤ Real.pi * R := by
  have hm := arcsin_sqrt_mem (p.haversine q)
  rw [sphericalDistanceTo_eq, central_angle_eq]
  constructor
  · exact mul_nonneg hR (by linarith [hm.1])
  · have := mul_le_mul_of_nonneg_left
      (show 2 * Real.arcsin (Real.sqrt (p.haversine q)) ≤ Real.pi by linarith [hm.2]) hR
    linarith

/-- C13, from latitude `10`, longitude `20` to latitude `30`, longitude `40` on a
sphere of radius `6371000`. -/
theorem sphericalDistanceTo_bounds_witness :
    (0 : ℝ) ≤ 6371000 ∧
    0 ≤ (⟨⟨⟨10⟩⟩, ⟨⟨20⟩⟩⟩ : Point).sphericalDistanceTo ⟨⟨⟨30⟩⟩, ⟨⟨40⟩⟩⟩ 6371000 ∧
    (⟨⟨⟨10⟩⟩, ⟨⟨20⟩⟩⟩ : Point).sphericalDistanceTo ⟨⟨⟨30⟩⟩, ⟨⟨40⟩⟩⟩ 6371000
      ≤ Real.pi * 6371000 :=
  ⟨by norm_num, sphericalDistanceTo_bounds _ _ 6371000 (by norm_num)⟩

/-- C14: a point is at distance zero from itself, and from every point with the
same latitude and longitude values, for every radius. -/
theorem sphericalDistanceTo_self (p : Point) (R : ℝ) :
    p.sphericalDistanceTo p R = 0 ∧
    ∀ q : Point, q.latitude.degrees = p.latitude.degrees →
      q.longitude.degrees = p.longitude.degrees → p.sphericalDistanceTo q R = 0 := by
  have key : ∀ q : Point, q.m_latitude.m_degrees = p.m_latitude.m_degrees →
      q.m_longitude.m_degrees = p.m_longitude.m_degrees → p.sphericalDistanceTo q R = 0 := by
    intro q hlat hlon
    rw [sphericalDistanceTo_eq, central_angle_eq, haversine_same p q hlat hlon]
    simp
  exact ⟨key p rfl rfl, key⟩

/-- C15: the bearing is in `[0, 360)`: the angle `theta` of `atan2`, in degrees,
is in `(-180, 180]`, and `fmod (theta + 360) 360` is `theta` when `theta >= 0`
and `theta + 360` when `theta < 0`. -/
theorem sphericalBearingTo_compass (p q : Point) :
    (-180 < p.bearingAngle q ∧ p.bearingAngle q ≤ 180) ∧
    p.sphericalBearingTo q = fmod (p.bearingAngle q + 360) 360 ∧
    (0 ≤ p.bearingAngle q → p.sphericalBearingTo q = p.bearingAngle q) ∧
    (p.bearingAngle q < 0 → p.sphericalBearingTo q = p.bearingAngle q + 360) ∧
    0 ≤ p.sphericalBearingTo q ∧ p.sphericalBearingTo q < 360 ∧
    p.sphericalBearingTo q ≠ 360 := by
  have hm := bearingAngle_mem p q
  have hb := sphericalBearingTo_mem p q
  refine ⟨hm, sphericalBearingTo_eq p q, ?_, ?_, hb.1, hb.2, ne_of_lt hb.2⟩
  · intro h
    rw [sphericalBearingTo_eq, fmod_turn_of_nonneg _ h hm.2]
  · intro h
    rw [sphericalBearingTo_eq, fmod_turn_of_neg _ hm.1 h]

end Erkir
